import Mathlib

/-!
Verification of the Dockerfile update-candidate resolver of this repository.

The development shallowly embeds the pure core of
`labs/lab-10-evergreen-pipeline/evergreen_scanner.py` (image-reference
parser, semantic-version classifier and comparator, update resolver,
Dockerfile rewriter) and of
`labs/lab-11-git-ops/python/dockerfile_updater.py` (the verifying
Dockerfile updater).

Strings are modelled as `List Char` over the ASCII fragment, Python string
operations (`strip`, `split`, `rsplit`, `upper`, `lower`, `in`,
`str.replace`, `re.match`, `re.search`, `re.sub` with escaped literal
patterns) are translated to executable Lean functions, and network / file
I/O is factored out: functions that in the source fetch tags or read files
instead take the tag list / file content as an argument.
-/

/-- Strings of the embedded programs: lists of characters. -/
abbrev Str := List Char

/-- Coerces a Lean string literal into the embedding's string type. -/
def strL (s : String) : Str := s.data

/-- Python whitespace (`str.strip`'s default set, ASCII fragment):
space, tab, newline, carriage return, vertical tab, form feed. -/
def isPySpace (c : Char) : Bool :=
  decide (c = ' ') || decide (c = '\t') || decide (c = '\n') ||
  decide (c = '\r') || decide (c = '\x0B') || decide (c = '\x0C')

/-- Python `str.lstrip()`. -/
def lstrip (x : Str) : Str := x.dropWhile isPySpace

/-- Python `str.rstrip()`. -/
def rstrip (x : Str) : Str := (x.reverse.dropWhile isPySpace).reverse

/-- Python `str.strip()`. -/
def pstrip (x : Str) : Str := rstrip (lstrip x)

/-- Python `str.upper()` (ASCII). -/
def upperStr (x : Str) : Str := x.map Char.toUpper

/-- Python `str.lower()` (ASCII). -/
def lowerStr (x : Str) : Str := x.map Char.toLower

/-- Python `pat in x` for strings: does `pat` occur as a contiguous
substring of `x`? -/
def occursIn (pat : Str) : Str → Bool
  | [] => pat.isEmpty
  | c :: cs => pat.isPrefixOf (c :: cs) || occursIn pat cs

/-- Python `x.split(pat)[0]` for a non-empty separator `pat`: the part of
`x` before the first occurrence of `pat` (all of `x` if `pat` does not
occur). -/
def beforeFirst (pat : Str) : Str → Str
  | [] => []
  | c :: cs => if pat.isPrefixOf (c :: cs) then [] else c :: beforeFirst pat cs

/-- Python `x.split(sep)` for a single-character separator. -/
def splitCh (sep : Char) : Str → List Str
  | [] => [[]]
  | c :: cs =>
    if c = sep then [] :: splitCh sep cs
    else
      match splitCh sep cs with
      | [] => [[c]]
      | r :: rs => (c :: r) :: rs

/-- Python `sep.join(l)`. -/
def joinWith (sep : Str) : List Str → Str
  | [] => []
  | [a] => a
  | a :: b :: t => a ++ sep ++ joinWith sep (b :: t)

/-- Character is not a colon (used for Python `split(':')` pieces). -/
def ncol (c : Char) : Bool := decide (c ≠ ':')

/-- Python `x.rsplit(':', 1)[1]` when `':' in x`: the part after the last
colon. -/
def afterLastColon (x : Str) : Str := (x.reverse.takeWhile ncol).reverse

/-- Python `x.rsplit(':', 1)[0]` when `':' in x`: the part before the last
colon. -/
def beforeLastColon (x : Str) : Str := ((x.reverse.dropWhile ncol).drop 1).reverse

/-- Python `x.split(':')[1]` when `':' in x`: the piece between the first
colon and the second colon (or the end). -/
def secondColonPiece (x : Str) : Str := ((x.dropWhile ncol).drop 1).takeWhile ncol

/-- DockerImage dataclass of `evergreen_scanner.py`: an image reference
with `name`, `tag` and optional `registry`. -/
structure DockerImage where
  name : Str
  tag : Str
  registry : Option Str
deriving DecidableEq

/-- The `__str__` method of `DockerImage`: `registry/name:tag` when a
registry is present, else `name:tag`. -/
def imageStr (img : DockerImage) : Str :=
  match img.registry with
  | some r => r ++ strL "/" ++ img.name ++ strL ":" ++ img.tag
  | none => img.name ++ strL ":" ++ img.tag

/-- UpdateCandidate dataclass of `evergreen_scanner.py`, restricted to the
two image fields the core logic uses (`dockerfile_path` and `line_number`
are bookkeeping for the external merge-request step). -/
structure UpdateCandidate where
  current : DockerImage
  latest : DockerImage
deriving DecidableEq

/-- `DockerfileParser._parse_from_statement`: parses one stripped `FROM`
line (the argument includes the leading `FROM `).  Drops a multi-stage
alias only when the literal separator `' AS '` occurs (the guard checks
the uppercased string, the split uses the original), skips `scratch` and
`$`-prefixed build arguments, and splits registry/name/tag exactly as the
Python code does. -/
def parse_from_statement (fromLine : Str) : Option DockerImage :=
  let ip0 := pstrip (fromLine.drop 5)
  let ip := if occursIn (strL " AS ") (upperStr ip0)
            then pstrip (beforeFirst (strL " AS ") ip0)
            else ip0
  if lowerStr ip = strL "scratch" ∨ ip.head? = some '$' then none
  else if '/' ∈ ip ∧ 2 ≤ ip.count '/' then
    match splitCh '/' ip with
    | [] => none
    | registry :: rest =>
      match rest.reverse with
      | [] => none
      | lastSeg :: midRev =>
        some { name := joinWith (strL "/") midRev.reverse ++ strL "/" ++
                         lastSeg.takeWhile ncol,
               tag := if ':' ∈ lastSeg then secondColonPiece lastSeg
                      else strL "latest",
               registry := some registry }
  else if ':' ∈ ip then
    some { name := beforeLastColon ip, tag := afterLastColon ip, registry := none }
  else
    some { name := ip, tag := strL "latest", registry := none }

/-- One iteration of `DockerfileParser.parse_dockerfile`'s loop: strip the
line, and parse it when it starts with `FROM `. -/
def parseLine (line : Str) : Option DockerImage :=
  let l := pstrip line
  if (strL "FROM ").isPrefixOf l then parse_from_statement l else none

/-- `DockerfileParser.parse_dockerfile`: split on newlines and collect the
images of the `FROM ` lines in source order. -/
def parse_dockerfile (content : Str) : List DockerImage :=
  (splitCh '\n' content).filterMap parseLine

/-- Word character of Python's `\w` (ASCII fragment). -/
def isWordC (c : Char) : Bool := c.isAlphanum || decide (c = '_')

/-- Character class `[\w\.-]` of the semantic-version suffix. -/
def isWordDotDash (c : Char) : Bool := isWordC c || decide (c = '.') || decide (c = '-')

/-- Value of a run of decimal digits, as Python `int` (no sign). -/
def natOfDigits (ds : Str) : ℕ := ds.foldl (fun n c => 10 * n + (c.toNat - 48)) 0

/-- Optional leading `v` of the version patterns: consumed when present
(the following `\d+` then has to match, exactly as in the regex, where
the empty alternative of `v?` also fails on a leading `v`). -/
def stripV (t : Str) : Str :=
  match t with
  | 'v' :: rest => rest
  | t => t

/-- Python `re.match(r'^v?(\d+)\.(\d+)(?:\.(\d+))?', tag)` of
`version_key` in `DockerHubAPI._get_latest_semantic_version`: a prefix
match extracting `(major, minor, patch)`, with a missing patch read as
`0`. -/
def matchVersionPrefix (tag : Str) : Option (ℕ × ℕ × ℕ) :=
  let t := stripV tag
  let d1 := t.takeWhile Char.isDigit
  if d1 = [] then none else
  match t.dropWhile Char.isDigit with
  | '.' :: r2 =>
    let d2 := r2.takeWhile Char.isDigit
    if d2 = [] then none else
    let patch : ℕ :=
      match r2.dropWhile Char.isDigit with
      | '.' :: r4 =>
        let d3 := r4.takeWhile Char.isDigit
        if d3 = [] then 0 else natOfDigits d3
      | _ => 0
    some (natOfDigits d1, natOfDigits d2, patch)
  | _ => none

/-- The `version_key` closure of `_get_latest_semantic_version`: tags that
do not match the version prefix are keyed `(0, 0, 0)`. -/
def version_key (tag : Str) : ℕ × ℕ × ℕ := (matchVersionPrefix tag).getD (0, 0, 0)

/-- End-of-pattern check for an anchored Python regex: `$` matches at the
end of the string, or just before a trailing newline. -/
def remainderOk (r : Str) : Bool := decide (r = []) || decide (r = ['\n'])

/-- The optional suffix `(?:-[\w\.-]+)?` followed by `$`. -/
def suffixOk (r : Str) : Bool :=
  remainderOk r ||
  (match r with
   | '-' :: rest =>
     decide (rest.takeWhile isWordDotDash ≠ []) &&
       remainderOk (rest.dropWhile isWordDotDash)
   | _ => false)

/-- `DockerHubAPI._is_semantic_version`: Python
`re.match(r'^v?(\d+)\.(\d+)(?:\.(\d+))?(?:-[\w\.-]+)?$', tag)`.  Note that
Python's `$` also matches just before a trailing newline. -/
def is_semantic_version (tag : Str) : Bool :=
  let t := stripV tag
  let d1 := t.takeWhile Char.isDigit
  if d1 = [] then false else
  match t.dropWhile Char.isDigit with
  | '.' :: r2 =>
    let d2 := r2.takeWhile Char.isDigit
    if d2 = [] then false else
    (match r2.dropWhile Char.isDigit with
     | '.' :: r4 =>
       let d3 := r4.takeWhile Char.isDigit
       if d3 = [] then suffixOk ('.' :: r4)
       else suffixOk (r4.dropWhile Char.isDigit)
     | r3 => suffixOk r3)
  | _ => false

/-- Lexicographic strict order on `(major, minor, patch)` triples, the
order Python uses to compare the tuples returned by `version_key`. -/
def tupLt (a b : ℕ × ℕ × ℕ) : Bool :=
  decide (a.1 < b.1) ||
  (decide (a.1 = b.1) &&
    (decide (a.2.1 < b.2.1) ||
     (decide (a.2.1 = b.2.1) && decide (a.2.2 < b.2.2))))

/-- One step of Python `max(tags, key=version_key)`: the accumulator is
replaced only when the new element's key is strictly greater, so the
first element with the maximal key wins. -/
def pickLater (best u : Str) : Str :=
  if tupLt (version_key best) (version_key u) then u else best

/-- `DockerHubAPI._get_latest_semantic_version`:
`max(tags, key=version_key)`.  Python `max` raises on an empty sequence;
the embedding returns `none` there. -/
def get_latest_semantic_version : List Str → Option Str
  | [] => none
  | t :: ts => some (ts.foldl pickLater t)

/-- Pure core of `DockerHubAPI.get_latest_tag`, taking the fetched tag
names as an argument (the HTTP call is the external collaborator): keep
the semantic-version tags and take their maximum; otherwise fall back to
a literal `latest` tag; otherwise `none`. -/
def get_latest_tag_from (tags : List Str) : Option Str :=
  match get_latest_semantic_version (tags.filter is_semantic_version) with
  | some t => some t
  | none => if strL "latest" ∈ tags then some (strL "latest") else none

/-- `GitLabEvergreenScanner._should_check_image`: skip `latest` tags, and
skip images whose registry is a non-empty string not containing
`docker.io` as a substring (Python truthiness: an empty registry string
is treated like `None`). -/
def should_check_image (img : DockerImage) : Bool :=
  if img.tag = strL "latest" then false
  else
    match img.registry with
    | some r => r.isEmpty || occursIn (strL "docker.io") r
    | none => true

/-- Per-image update resolution of `GitLabEvergreenScanner._scan_dockerfile`
(lines 284-302), with the Docker Hub tag list passed in: when the image
should be checked and the selected latest tag differs from the current
tag, an update candidate keeping name and registry is produced. -/
def resolve (img : DockerImage) (availableTags : List Str) : Option UpdateCandidate :=
  if should_check_image img then
    match get_latest_tag_from availableTags with
    | some lt =>
      if lt ≠ img.tag then
        some ⟨img, ⟨img.name, lt, img.registry⟩⟩
      else none
    | none => none
  else none

/-- Fuelled worker for Python `content.replace(pat, rep)` (all
non-overlapping occurrences, left to right); the fuel is an upper bound
on the length of the remaining input. -/
def replaceAllAux (pat rep : Str) : ℕ → Str → Str
  | 0, x => x
  | _ + 1, [] => []
  | fuel + 1, c :: cs =>
    if pat.isPrefixOf (c :: cs) then
      rep ++ replaceAllAux pat rep fuel (cs.drop (pat.length - 1))
    else
      c :: replaceAllAux pat rep fuel cs

/-- Python `content.replace(pat, rep)` for a non-empty pattern (equally,
`re.sub` on a regex-escaped literal pattern, as in
`DockerfileUpdater.update_image_version`; the replacement string is
modelled literally, the backslash-escape processing of `re.sub`
replacements being irrelevant to backslash-free version strings).  The
sources never call it with an empty pattern; the embedding returns the
content unchanged there. -/
def replaceAll (pat rep x : Str) : Str :=
  if pat = [] then x else replaceAllAux pat rep x.length x

/-- Pure core of `GitLabEvergreenScanner._update_dockerfile`: replace
every occurrence of the current reference string with the latest
reference string.  The function has no failure branch of its own — the
Python method only propagates exceptions of the external GitLab file API,
so the in-memory rewrite always succeeds, even when the substitution
found nothing. -/
def update_dockerfile (content : Str) (cand : UpdateCandidate) : Option Str :=
  some (replaceAll (imageStr cand.current) (imageStr cand.latest) content)

/-- Maximal run of non-whitespace characters, Python regex `[^\s]+`
(greedy). -/
def nonSpaceRun (x : Str) : Str := x.takeWhile (fun c => !isPySpace c)

/-- Scanning worker of `re.search(rf"FROM {name}:([^\s]+)", content)`: at
the leftmost position where the literal pattern matches and is followed
by at least one non-whitespace character, return that greedy run. -/
def searchTagAfter (pat : Str) : Str → Option Str
  | [] => none
  | c :: cs =>
    if pat.isPrefixOf (c :: cs) && decide (nonSpaceRun ((c :: cs).drop pat.length) ≠ [])
    then some (nonSpaceRun ((c :: cs).drop pat.length))
    else searchTagAfter pat cs

/-- `DockerfileUpdater.get_current_image_version`, with the Dockerfile
content passed in instead of read from disk: the first tag following
`FROM imageName:` in the content. -/
def get_current_image_version (content imageName : Str) : Option Str :=
  searchTagAfter (strL "FROM " ++ imageName ++ strL ":") content

/-- `DockerfileUpdater.update_image_version`, with file I/O factored out:
takes the Dockerfile content and returns (success, new content).  The
branches mirror the Python method: no `FROM imageName:` line is a
failure; an already-equal version is reported as success without change;
an unchanged substitution is a failure; otherwise the content is written
and then re-read, and success requires the re-read version to equal the
new one. -/
def update_image_version (content imageName newVersion : Str) : Bool × Str :=
  match get_current_image_version content imageName with
  | none => (false, content)
  | some current =>
    if current = newVersion then (true, content)
    else
      if replaceAll (strL "FROM " ++ imageName ++ strL ":" ++ current)
                    (strL "FROM " ++ imageName ++ strL ":" ++ newVersion) content = content
      then (false, content)
      else
        if get_current_image_version
             (replaceAll (strL "FROM " ++ imageName ++ strL ":" ++ current)
                         (strL "FROM " ++ imageName ++ strL ":" ++ newVersion) content)
             imageName = some newVersion
        then (true,
              replaceAll (strL "FROM " ++ imageName ++ strL ":" ++ current)
                         (strL "FROM " ++ imageName ++ strL ":" ++ newVersion) content)
        else (false,
              replaceAll (strL "FROM " ++ imageName ++ strL ":" ++ current)
                         (strL "FROM " ++ imageName ++ strL ":" ++ newVersion) content)

lemma tupLt_irrefl (a : ℕ × ℕ × ℕ) : tupLt a a = false := by
  rcases a with ⟨a1, a2, a3⟩
  simp [tupLt]

lemma tupLt_trans {a b c : ℕ × ℕ × ℕ} (h1 : tupLt a b = true) (h2 : tupLt b c = true) :
    tupLt a c = true := by
  rcases a with ⟨a1, a2, a3⟩
  rcases b with ⟨b1, b2, b3⟩
  rcases c with ⟨c1, c2, c3⟩
  simp only [tupLt, Bool.or_eq_true, Bool.and_eq_true, decide_eq_true_eq] at h1 h2 ⊢
  omega

lemma tupLt_false_elim {a b : ℕ × ℕ × ℕ} (h : tupLt a b = false) :
    tupLt b a = true ∨ a = b := by
  rcases a with ⟨a1, a2, a3⟩
  rcases b with ⟨b1, b2, b3⟩
  simp only [tupLt, Bool.or_eq_false_iff, Bool.and_eq_false_iff, decide_eq_false_iff_not,
    Bool.or_eq_true, Bool.and_eq_true, decide_eq_true_eq, Prod.mk.injEq] at h ⊢
  omega

lemma foldl_pickLater_mem : ∀ (ts : List Str) (t : Str), ts.foldl pickLater t ∈ t :: ts := by
  intro ts
  induction ts with
  | nil => intro t; simp
  | cons u ts ih =>
    intro t
    have h := ih (pickLater t u)
    simp only [List.foldl_cons]
    rcases List.mem_cons.mp h with h1 | h1
    · rw [h1]
      unfold pickLater
      split
      · exact List.mem_cons_of_mem _ (List.mem_cons_self _ _)
      · exact List.mem_cons_self _ _
    · exact List.mem_cons_of_mem _ (List.mem_cons_of_mem _ h1)

lemma foldl_pickLater_max : ∀ (ts : List Str) (t x : Str), x ∈ t :: ts →
    tupLt (version_key (ts.foldl pickLater t)) (version_key x) = false := by
  intro ts
  induction ts with
  | nil =>
    intro t x hx
    rcases List.mem_cons.mp hx with rfl | h
    · exact tupLt_irrefl _
    · simp at h
  | cons u ts ih =>
    intro t x hx
    simp only [List.foldl_cons]
    have hhead := ih (pickLater t u) (pickLater t u) (List.mem_cons_self _ _)
    rcases List.mem_cons.mp hx with rfl | hx'
    · -- x = t
      by_cases h : tupLt (version_key x) (version_key u) = true
      · have hpl : pickLater x u = u := by unfold pickLater; rw [h]; simp
        rw [hpl] at hhead ⊢
        cases hc : tupLt (version_key (ts.foldl pickLater u)) (version_key x) with
        | false => rfl
        | true =>
          have := tupLt_trans hc h
          rw [this] at hhead
          exact absurd hhead (by simp)
      · have hpl : pickLater x u = x := by
          unfold pickLater
          rw [Bool.not_eq_true] at h
          rw [h]
          simp
        rw [hpl] at hhead ⊢
        exact hhead
    · rcases List.mem_cons.mp hx' with rfl | hx'' 
      · -- x = u
        by_cases h : tupLt (version_key t) (version_key x) = true
        · have hpl : pickLater t x = x := by unfold pickLater; rw [h]; simp
          rw [hpl] at hhead ⊢
          exact hhead
        · rw [Bool.not_eq_true] at h
          have hpl : pickLater t x = t := by unfold pickLater; rw [h]; simp
          rw [hpl] at hhead ⊢
          -- hhead : ¬ r < t ; h : ¬ t < x, so x < t or x = t; if r < x then r < t. 
          cases hc : tupLt (version_key (ts.foldl pickLater t)) (version_key x) with
          | false => rfl
          | true =>
            rcases tupLt_false_elim h with hxt | hxt
            · have := tupLt_trans hc hxt
              rw [this] at hhead
              exact absurd hhead (by simp)
            · rw [hxt] at hhead
              rw [hc] at hhead
              exact absurd hhead (by simp)
      · exact ih (pickLater t u) x (List.mem_cons_of_mem _ hx'')

/-- Claim C1: for every list of tag strings containing at least one tag
matching the semantic-version pattern, `_get_latest_semantic_version`
returns a tag of the list (in its original form) whose extracted
`(major, minor, patch)` tuple is lexicographically maximal, comparing the
components numerically; in particular the two example selections of the
spec hold, a missing patch counts as `0`, and a leading `v` is stripped
for the key only. -/
theorem claim_C1 :
    (∀ tags : List Str, (∃ t ∈ tags, is_semantic_version t = true) →
      ∃ r, get_latest_semantic_version tags = some r ∧ r ∈ tags ∧
        ∀ t ∈ tags, tupLt (version_key r) (version_key t) = false)
    ∧ get_latest_semantic_version
        [strL "1.2.3", strL "1.2.4", strL "1.3.0", strL "2.0.0"] = some (strL "2.0.0")
    ∧ get_latest_semantic_version
        [strL "v3.9.0", strL "v3.9.1", strL "v3.11.0"] = some (strL "v3.11.0")
    ∧ version_key (strL "v3.11.0") = (3, 11, 0)
    ∧ version_key (strL "1.2") = (1, 2, 0) := by
  refine ⟨?_, by decide, by decide, by decide, by decide⟩
  intro tags h
  rcases tags with _ | ⟨t, ts⟩
  · rcases h with ⟨t, ht, _⟩
    simp at ht
  · exact ⟨ts.foldl pickLater t, rfl, foldl_pickLater_mem ts t, foldl_pickLater_max ts t⟩

/-- Witness for C1 at the spec's first example list. -/
theorem claim_C1_witness :
    ∃ r, get_latest_semantic_version
        [strL "1.2.3", strL "1.2.4", strL "1.3.0", strL "2.0.0"] = some r ∧
      r ∈ [strL "1.2.3", strL "1.2.4", strL "1.3.0", strL "2.0.0"] ∧
      ∀ t ∈ [strL "1.2.3", strL "1.2.4", strL "1.3.0", strL "2.0.0"],
        tupLt (version_key r) (version_key t) = false :=
  claim_C1.1 _ ⟨strL "1.2.3", by decide, by decide⟩

/-- Claim C7: the claim says equal-key ties are broken in favour of the
tag encountered last; the code's `max(tags, key=version_key)` keeps the
first maximal element.  On the repository's own test input
`["1.0.0-alpha", "1.0.0-beta", "1.0.0"]` (whose expected answer in
`test_enhanced_scanner.py` is the last tag `"1.0.0"`) the code returns
the first tag `"1.0.0-alpha"`, although all three tags share the key
`(1, 0, 0)`. -/
theorem claim_C7 :
    get_latest_semantic_version
      [strL "1.0.0-alpha", strL "1.0.0-beta", strL "1.0.0"] = some (strL "1.0.0-alpha")
    ∧ version_key (strL "1.0.0-alpha") = version_key (strL "1.0.0")
    ∧ version_key (strL "1.0.0-beta") = version_key (strL "1.0.0")
    ∧ strL "1.0.0-alpha" ≠ strL "1.0.0" := by decide

/-- Claim C10: on every non-empty list of tags the max-selection returns
an element of its input and never fails, tags that do not match the
version pattern being keyed `(0, 0, 0)`; it fails exactly on the empty
list. -/
theorem claim_C10 :
    (∀ tags : List Str, tags ≠ [] →
      ∃ r, get_latest_semantic_version tags = some r ∧ r ∈ tags)
    ∧ get_latest_semantic_version [] = none
    ∧ version_key (strL "alpine") = (0, 0, 0)
    ∧ version_key (strL "latest") = (0, 0, 0)
    ∧ get_latest_semantic_version [strL "latest", strL "alpine"] = some (strL "latest") := by
  refine ⟨?_, rfl, by decide, by decide, by decide⟩
  intro tags h
  rcases tags with _ | ⟨t, ts⟩
  · exact absurd rfl h
  · exact ⟨ts.foldl pickLater t, rfl, foldl_pickLater_mem ts t⟩

/-- Witness for C10 on a concrete non-empty list of non-semantic tags. -/
theorem claim_C10_witness :
    ∃ r, get_latest_semantic_version [strL "latest", strL "alpine"] = some r ∧
      r ∈ [strL "latest", strL "alpine"] :=
  claim_C10.1 _ (by decide)

/-! ## Replacement lemmas -/

lemma replaceAllAux_not_occurs (pat rep : Str) :
    ∀ (fuel : ℕ) (x : Str), occursIn pat x = false → replaceAllAux pat rep fuel x = x := by
  intro fuel
  induction fuel with
  | zero => intro x _; rfl
  | succ fuel ih =>
    intro x h
    cases x with
    | nil => rfl
    | cons c cs =>
      simp only [occursIn, Bool.or_eq_false_iff] at h
      simp only [replaceAllAux, h.1, Bool.false_eq_true, if_false]
      rw [ih cs h.2]

lemma replaceAll_not_occurs {pat x : Str} (rep : Str) (h : occursIn pat x = false) :
    replaceAll pat rep x = x := by
  unfold replaceAll
  split
  · rfl
  · exact replaceAllAux_not_occurs pat rep x.length x h

/-! ## Success of the verifying updater implies the re-read version -/

lemma update_image_version_get {content n v out : Str}
    (h : update_image_version content n v = (true, out)) :
    get_current_image_version out n = some v := by
  unfold update_image_version at h
  split at h
  · exact absurd h (by simp)
  · rename_i cur hg
    split at h
    · rename_i hcv
      rw [Prod.mk.injEq] at h
      obtain ⟨-, ho⟩ := h
      subst ho
      rw [hg, hcv]
    · split at h
      · exact absurd h (by simp)
      · split at h
        · rename_i hv
          rw [Prod.mk.injEq] at h
          obtain ⟨-, ho⟩ := h
          subst ho
          exact hv
        · exact absurd h (by simp)

/-- Claim C2: the parser is claimed to discard a multi-stage alias after
the case-insensitive separator `' AS '`; the code checks the separator
case-insensitively (on the uppercased image part) but splits only on the
uppercase literal, so on `FROM node:16.20.0-alpine as builder` the alias
text ends up inside the tag, while the uppercase variant is split as
described. -/
theorem claim_C2 :
    parseLine (strL "FROM node:16.20.0-alpine as builder")
      = some ⟨strL "node", strL "16.20.0-alpine as builder", none⟩
    ∧ occursIn (strL " AS ") (upperStr (strL "node:16.20.0-alpine as builder")) = true
    ∧ parseLine (strL "FROM node:16.20.0-alpine AS builder")
      = some ⟨strL "node", strL "16.20.0-alpine", none⟩ := by decide

/-- Counterexample for C3: the registry `notdocker.io` is a host other
than the default registry's canonical host `docker.io`, yet the resolver
checks the image (the code only tests `'docker.io' in registry` as a
substring) and produces an update candidate instead of `NoUpdate`. -/
theorem claim_C3_cex :
    should_check_image ⟨strL "ns/app", strL "1.0", some (strL "notdocker.io")⟩ = true
    ∧ resolve ⟨strL "ns/app", strL "1.0", some (strL "notdocker.io")⟩ [strL "2.0"]
        = some ⟨⟨strL "ns/app", strL "1.0", some (strL "notdocker.io")⟩,
                ⟨strL "ns/app", strL "2.0", some (strL "notdocker.io")⟩⟩
    ∧ strL "notdocker.io" ≠ strL "docker.io" := by decide

/-- Claim C3 (amended): the resolver returns `NoUpdate` without consulting
the tags whenever the current tag is `latest`, or whenever the registry
field is a non-empty string that does not contain `docker.io` as a
substring. -/
theorem claim_C3 :
    (∀ (img : DockerImage) (tags : List Str),
      img.tag = strL "latest" → resolve img tags = none)
    ∧ (∀ (img : DockerImage) (tags : List Str) (r : Str),
        img.registry = some r → r ≠ [] →
        occursIn (strL "docker.io") r = false → resolve img tags = none) := by
  constructor
  · intro img tags h
    have hsc : should_check_image img = false := by
      unfold should_check_image
      rw [h]
      simp
    unfold resolve
    rw [hsc]
    simp
  · intro img tags r hreg hne hocc
    have hsc : should_check_image img = false := by
      unfold should_check_image
      rw [hreg]
      by_cases ht : img.tag = strL "latest"
      · simp [ht]
      · rw [if_neg ht]
        have hemp : r.isEmpty = false := by
          cases r with
          | nil => exact absurd rfl hne
          | cons c cs => rfl
        show (r.isEmpty || occursIn (strL "docker.io") r) = false
        rw [hemp, hocc]
        rfl
    unfold resolve
    rw [hsc]
    simp

/-- Witness for C3 at a floating tag and at a foreign registry. -/
theorem claim_C3_witness :
    resolve ⟨strL "app", strL "latest", none⟩ [strL "9.9"] = none
    ∧ resolve ⟨strL "a", strL "1.0", some (strL "ghcr.io")⟩ [strL "9.9"] = none :=
  ⟨claim_C3.1 _ [strL "9.9"] rfl,
   claim_C3.2 _ [strL "9.9"] (strL "ghcr.io") rfl (by decide) (by decide)⟩

/-- Counterexample for C5: the evergreen scanner's rewriter
(`_update_dockerfile`) performs the substitution although the candidate's
current reference does not occur in the content, and completes as a
success with the content unchanged — no failure is reported and no
verification is performed. -/
theorem claim_C5_cex :
    update_dockerfile (strL "FROM python:3.9\n")
      ⟨⟨strL "node", strL "16", none⟩, ⟨strL "node", strL "18", none⟩⟩
      = some (strL "FROM python:3.9\n")
    ∧ occursIn (imageStr ⟨strL "node", strL "16", none⟩) (strL "FROM python:3.9\n") = false := by
  decide

/-- Claim C5 (amended): the lab-11 updater (`update_image_version`)
reports failure when no `FROM imageName:` line exists, reports failure
when the substitution leaves the content unchanged, and on every success
the re-read content reports the new version (but when the found version
already equals the target it reports success without substituting); the
evergreen rewriter (`_update_dockerfile`) instead returns the content
unchanged as a success when the current reference does not occur. -/
theorem claim_C5 :
    (∀ content n v : Str, get_current_image_version content n = none →
      update_image_version content n v = (false, content))
    ∧ (∀ content n v out : Str, update_image_version content n v = (true, out) →
        get_current_image_version out n = some v)
    ∧ (∀ content n v cur : Str, get_current_image_version content n = some cur →
        cur ≠ v →
        replaceAll (strL "FROM " ++ n ++ strL ":" ++ cur)
                   (strL "FROM " ++ n ++ strL ":" ++ v) content = content →
        update_image_version content n v = (false, content))
    ∧ (∀ (content : Str) (cand : UpdateCandidate),
        occursIn (imageStr cand.current) content = false →
        update_dockerfile content cand = some content) := by
  refine ⟨?_, ?_, ?_, ?_⟩
  · intro content n v h
    unfold update_image_version
    rw [h]
  · intro content n v out h
    exact update_image_version_get h
  · intro content n v cur hg hcv hrepl
    unfold update_image_version
    rw [hg]
    simp only [if_neg hcv, if_pos hrepl]
  · intro content cand h
    unfold update_dockerfile
    rw [replaceAll_not_occurs _ h]

/-- Witness for C5: a successful concrete update, whose output re-reads
as the new version. -/
theorem claim_C5_witness :
    get_current_image_version (strL "FROM node:18\n") (strL "node") = some (strL "18") :=
  claim_C5.2.1 (strL "FROM node:16\n") (strL "node") (strL "18") (strL "FROM node:18\n")
    (by decide)

/-- Claim C6: on the failing input below the resolve-rewrite-parse round
trip does not yield an image whose tag equals the candidate's
`latest.tag`.  The tag `"2.0\n"` passes `_is_semantic_version` because
Python's `$` also matches just before a trailing newline, the resolver
then emits it as `latest.tag`, the rewrite inserts a line break, and the
re-parsed image reports tag `"2.0"` instead. -/
theorem claim_C6 :
    parse_dockerfile (strL "FROM node:1.0") = [⟨strL "node", strL "1.0", none⟩]
    ∧ is_semantic_version (strL "2.0\n") = true
    ∧ resolve ⟨strL "node", strL "1.0", none⟩ [strL "2.0\n"]
        = some ⟨⟨strL "node", strL "1.0", none⟩, ⟨strL "node", strL "2.0\n", none⟩⟩
    ∧ update_dockerfile (strL "FROM node:1.0")
        ⟨⟨strL "node", strL "1.0", none⟩, ⟨strL "node", strL "2.0\n", none⟩⟩
        = some (strL "FROM node:2.0\n")
    ∧ parse_dockerfile (strL "FROM node:2.0\n") = [⟨strL "node", strL "2.0", none⟩]
    ∧ strL "2.0" ≠ strL "2.0\n" := by decide

/-- Counterexample for C8: after a successful first update the second
application with the same target reports success (the updater treats an
already-equal version as success), not a `RewriteMismatch` failure,
although the old tag no longer occurs. -/
theorem claim_C8_cex :
    update_image_version (strL "FROM node:16\n") (strL "node") (strL "18")
      = (true, strL "FROM node:18\n")
    ∧ update_image_version (strL "FROM node:18\n") (strL "node") (strL "18")
      = (true, strL "FROM node:18\n")
    ∧ occursIn (strL "node:16") (strL "FROM node:18\n") = false := by decide

/-- Claim C8 (amended): applying the updater a second time with the same
target after a successful first application reports success with the
content unchanged (the found version already equals the target), not a
failure. -/
theorem claim_C8 :
    ∀ content n v out : Str, update_image_version content n v = (true, out) →
      update_image_version out n v = (true, out) := by
  intro content n v out h
  have hg := update_image_version_get h
  unfold update_image_version
  rw [hg]
  simp

/-- Witness for C8 at a concrete successful first update. -/
theorem claim_C8_witness :
    update_image_version (strL "FROM node:18\n") (strL "node") (strL "18")
      = (true, strL "FROM node:18\n") :=
  claim_C8 (strL "FROM node:16\n") (strL "node") (strL "18") (strL "FROM node:18\n")
    (by decide)

/-! ## Splitting and joining lemmas for the registry branch -/

lemma takeWhile_ncol_all {a : Str} (h : ∀ c ∈ a, c ≠ ':') : a.takeWhile ncol = a := by
  induction a with
  | nil => rfl
  | cons c cs ih =>
    have hc : ncol c = true := by
      simp only [ncol, decide_eq_true_eq]
      exact h c (List.mem_cons_self _ _)
    simp only [List.takeWhile_cons, hc, if_true]
    rw [ih fun d hd => h d (List.mem_cons_of_mem _ hd)]

lemma takeWhile_ncol_append {a : Str} (tl : Str) (h : ∀ c ∈ a, c ≠ ':') :
    (a ++ ':' :: tl).takeWhile ncol = a := by
  induction a with
  | nil => simp [List.takeWhile_cons, ncol]
  | cons c cs ih =>
    have hc : ncol c = true := by
      simp only [ncol, decide_eq_true_eq]
      exact h c (List.mem_cons_self _ _)
    simp only [List.cons_append, List.takeWhile_cons, hc, if_true]
    rw [ih fun d hd => h d (List.mem_cons_of_mem _ hd)]

lemma dropWhile_ncol_append {a : Str} (tl : Str) (h : ∀ c ∈ a, c ≠ ':') :
    (a ++ ':' :: tl).dropWhile ncol = ':' :: tl := by
  induction a with
  | nil => simp [List.dropWhile_cons, ncol]
  | cons c cs ih =>
    have hc : ncol c = true := by
      simp only [ncol, decide_eq_true_eq]
      exact h c (List.mem_cons_self _ _)
    simp only [List.cons_append, List.dropWhile_cons, hc, if_true]
    exact ih fun d hd => h d (List.mem_cons_of_mem _ hd)

lemma splitCh_ne_nil (sep : Char) (x : Str) : splitCh sep x ≠ [] := by
  cases x with
  | nil => simp [splitCh]
  | cons c cs =>
    unfold splitCh
    split
    · simp
    · split
      · simp
      · simp

lemma splitCh_not_mem {sep : Char} {x : Str} (h : sep ∉ x) : splitCh sep x = [x] := by
  induction x with
  | nil => rfl
  | cons c cs ih =>
    have hc : ¬ c = sep := fun hc => h (hc ▸ List.mem_cons_self _ _)
    unfold splitCh
    rw [if_neg hc]
    rw [ih fun hm => h (List.mem_cons_of_mem _ hm)]

lemma splitCh_cons_of_ne {sep c : Char} {cs : Str} (hc : ¬ c = sep) :
    splitCh sep (c :: cs) = (c :: (splitCh sep cs).headI) :: (splitCh sep cs).tail := by
  cases h : splitCh sep cs with
  | nil => exact absurd h (splitCh_ne_nil sep cs)
  | cons r rs => simp [splitCh, h, hc]

lemma splitCh_append {sep : Char} {a : Str} (b : Str) (h : sep ∉ a) :
    splitCh sep (a ++ sep :: b) = a :: splitCh sep b := by
  induction a with
  | nil => simp [splitCh]
  | cons c cs ih =>
    have hc : ¬ c = sep := fun hc => h (hc ▸ List.mem_cons_self _ _)
    rw [List.cons_append, splitCh_cons_of_ne hc,
      ih fun hm => h (List.mem_cons_of_mem _ hm)]
    simp

lemma mem_of_mem_splitCh {sep : Char} {x : Str} {p : Str} {c : Char}
    (hp : p ∈ splitCh sep x) (hc : c ∈ p) : c ∈ x := by
  induction x generalizing p with
  | nil =>
    simp only [splitCh, List.mem_singleton] at hp
    subst hp
    simp at hc
  | cons d ds ih =>
    unfold splitCh at hp
    split at hp
    · rcases List.mem_cons.mp hp with rfl | hp'
      · simp at hc
      · exact List.mem_cons_of_mem _ (ih hp' hc)
    · rename_i hd
      cases hsp : splitCh sep ds with
      | nil => exact absurd hsp (splitCh_ne_nil sep ds)
      | cons r rs =>
        rw [hsp] at hp
        rcases List.mem_cons.mp hp with rfl | hp'
        · rcases List.mem_cons.mp hc with rfl | hc'
          · exact List.mem_cons_self _ _
          · exact List.mem_cons_of_mem _ (ih (hsp ▸ List.mem_cons_self r rs) hc')
        · exact List.mem_cons_of_mem _ (ih (hsp ▸ List.mem_cons_of_mem r hp') hc)

lemma splitCh_joinWith (segs : List Str) (lastSeg : Str) (h1 : segs ≠ [])
    (h2 : ∀ s ∈ segs, '/' ∉ s) (h3 : '/' ∉ lastSeg) :
    splitCh '/' (joinWith (strL "/") segs ++ '/' :: lastSeg) = segs ++ [lastSeg] := by
  induction segs with
  | nil => exact absurd rfl h1
  | cons a segs ih =>
    cases segs with
    | nil =>
      show splitCh '/' (a ++ '/' :: lastSeg) = [a, lastSeg]
      rw [splitCh_append lastSeg (h2 a (List.mem_cons_self _ _))]
      rw [splitCh_not_mem h3]
    | cons b t =>
      show splitCh '/' ((a ++ strL "/" ++ joinWith (strL "/") (b :: t)) ++ '/' :: lastSeg)
        = a :: ((b :: t) ++ [lastSeg])
      have : (a ++ strL "/" ++ joinWith (strL "/") (b :: t)) ++ '/' :: lastSeg
          = a ++ '/' :: (joinWith (strL "/") (b :: t) ++ '/' :: lastSeg) := by
        simp [strL]
      rw [this]
      rw [splitCh_append _ (h2 a (List.mem_cons_self _ _))]
      rw [ih (by simp) fun s hs => h2 s (List.mem_cons_of_mem _ hs)]

/-- Unfolding helper: on an already-stripped image part with no
case-insensitive `' AS '` occurrence, `parse_from_statement` reduces to
its branch structure on the image part itself. -/
lemma parse_from_statement_no_as (x : Str) (hx : pstrip x = x)
    (hAS : occursIn (strL " AS ") (upperStr x) = false) :
    parse_from_statement (strL "FROM " ++ x) =
      (if lowerStr x = strL "scratch" ∨ x.head? = some '$' then none
       else if '/' ∈ x ∧ 2 ≤ x.count '/' then
         match splitCh '/' x with
         | [] => none
         | registry :: rest =>
           match rest.reverse with
           | [] => none
           | lastSeg :: midRev =>
             some { name := joinWith (strL "/") midRev.reverse ++ strL "/" ++
                      lastSeg.takeWhile ncol,
                    tag := if ':' ∈ lastSeg then secondColonPiece lastSeg
                           else strL "latest",
                    registry := some registry }
       else if ':' ∈ x then
         some ⟨beforeLastColon x, afterLastColon x, none⟩
       else some ⟨x, strL "latest", none⟩) := by
  have hdrop : (strL "FROM " ++ x).drop 5 = x := by
    have h5 : (strL "FROM ").length = 5 := rfl
    rw [← h5, List.drop_left]
  simp only [parse_from_statement, hdrop, hx, hAS, Bool.false_eq_true, if_false]

/-- Counterexample for C4: on a final path segment carrying two colons
the code splits on the FIRST colon (the tag is the piece between the
first and second colon, the name keeps only the part before the first
colon), not on the last colon as claimed. -/
theorem claim_C4_cex :
    parseLine (strL "FROM h.example/a/b:1:2")
      = some ⟨strL "a/b", strL "1", some (strL "h.example")⟩
    ∧ (⟨strL "a/b", strL "1", some (strL "h.example")⟩ : DockerImage)
      ≠ ⟨strL "a/b:1", strL "2", some (strL "h.example")⟩ := by decide

/-- Claim C4 (amended): for an image reference with two or more `/`
separators, the registry is the first segment and the name joins the
remaining segments; the tag is obtained by splitting the final path
segment on its FIRST colon — the tag is the piece between the first and
the second colon (or the end), and the name keeps the final segment's
part before the first colon; a final segment without a colon yields tag
`latest`.  The spec's Red Hat example parses as stated. -/
theorem claim_C4 :
    (∀ (reg fp t rest : Str) (segs : List Str),
      reg ≠ [] → reg.head? ≠ some '$' → '/' ∉ reg → segs ≠ [] →
      (∀ s ∈ segs, '/' ∉ s) → '/' ∉ fp → '/' ∉ t → '/' ∉ rest →
      ':' ∉ fp → ':' ∉ t → (rest = [] ∨ ∃ r2, rest = ':' :: r2) →
      pstrip (reg ++ strL "/" ++ joinWith (strL "/") segs ++ strL "/" ++
          (fp ++ strL ":" ++ t ++ rest))
        = reg ++ strL "/" ++ joinWith (strL "/") segs ++ strL "/" ++
          (fp ++ strL ":" ++ t ++ rest) →
      occursIn (strL " AS ") (upperStr (reg ++ strL "/" ++ joinWith (strL "/") segs ++
          strL "/" ++ (fp ++ strL ":" ++ t ++ rest))) = false →
      parse_from_statement (strL "FROM " ++ (reg ++ strL "/" ++ joinWith (strL "/") segs ++
          strL "/" ++ (fp ++ strL ":" ++ t ++ rest)))
        = some ⟨joinWith (strL "/") segs ++ strL "/" ++ fp, t, some reg⟩)
    ∧ (∀ (reg lastSeg : Str) (segs : List Str),
      reg ≠ [] → reg.head? ≠ some '$' → '/' ∉ reg → segs ≠ [] →
      (∀ s ∈ segs, '/' ∉ s) → '/' ∉ lastSeg → ':' ∉ lastSeg →
      pstrip (reg ++ strL "/" ++ joinWith (strL "/") segs ++ strL "/" ++ lastSeg)
        = reg ++ strL "/" ++ joinWith (strL "/") segs ++ strL "/" ++ lastSeg →
      occursIn (strL " AS ") (upperStr (reg ++ strL "/" ++ joinWith (strL "/") segs ++
          strL "/" ++ lastSeg)) = false →
      parse_from_statement (strL "FROM " ++ (reg ++ strL "/" ++ joinWith (strL "/") segs ++
          strL "/" ++ lastSeg))
        = some ⟨joinWith (strL "/") segs ++ strL "/" ++ lastSeg, strL "latest", some reg⟩)
    ∧ parseLine (strL "FROM registry.access.redhat.com/ubi8/python-39:1.14.0")
        = some ⟨strL "ubi8/python-39", strL "1.14.0", some (strL "registry.access.redhat.com")⟩ := by
  have key : ∀ (reg lastSeg : Str) (segs : List Str),
      reg ≠ [] → reg.head? ≠ some '$' → '/' ∉ reg → segs ≠ [] →
      (∀ s ∈ segs, '/' ∉ s) → '/' ∉ lastSeg →
      pstrip (reg ++ strL "/" ++ joinWith (strL "/") segs ++ strL "/" ++ lastSeg)
        = reg ++ strL "/" ++ joinWith (strL "/") segs ++ strL "/" ++ lastSeg →
      occursIn (strL " AS ") (upperStr (reg ++ strL "/" ++ joinWith (strL "/") segs ++
          strL "/" ++ lastSeg)) = false →
      parse_from_statement (strL "FROM " ++ (reg ++ strL "/" ++ joinWith (strL "/") segs ++
          strL "/" ++ lastSeg))
        = some ⟨joinWith (strL "/") segs ++ strL "/" ++ lastSeg.takeWhile ncol,
                if ':' ∈ lastSeg then secondColonPiece lastSeg else strL "latest",
                some reg⟩ := by
    intro reg lastSeg segs hreg hregd hregs hsegs hsegsl hlsl hstrip hAS
    have hAdecomp : reg ++ strL "/" ++ joinWith (strL "/") segs ++ strL "/" ++ lastSeg
        = reg ++ '/' :: (joinWith (strL "/") segs ++ '/' :: lastSeg) := by
      simp [strL]
    rw [parse_from_statement_no_as _ hstrip hAS]
    have hslash : '/' ∈ reg ++ strL "/" ++ joinWith (strL "/") segs ++ strL "/" ++ lastSeg := by
      rw [hAdecomp]
      exact List.mem_append_right _ (List.mem_cons_self _ _)
    have hscr : ¬(lowerStr (reg ++ strL "/" ++ joinWith (strL "/") segs ++ strL "/" ++ lastSeg)
        = strL "scratch"
        ∨ (reg ++ strL "/" ++ joinWith (strL "/") segs ++ strL "/" ++ lastSeg).head?
          = some '$') := by
      rintro (h | h)
      · have hlow : Char.toLower '/' = '/' := by decide
        have hm : '/' ∈ lowerStr (reg ++ strL "/" ++ joinWith (strL "/") segs ++
            strL "/" ++ lastSeg) := by
          unfold lowerStr
          rw [← hlow]
          exact List.mem_map_of_mem Char.toLower hslash
        rw [h] at hm
        revert hm
        decide
      · cases reg with
        | nil => exact hreg rfl
        | cons c cs =>
          rw [hAdecomp] at h
          simp only [List.cons_append, List.head?_cons, Option.some.injEq] at h
          exact hregd (by simp [h])
    rw [if_neg hscr]
    have hcount : '/' ∈ reg ++ strL "/" ++ joinWith (strL "/") segs ++ strL "/" ++ lastSeg
        ∧ 2 ≤ (reg ++ strL "/" ++ joinWith (strL "/") segs ++ strL "/" ++ lastSeg).count '/' := by
      refine ⟨hslash, ?_⟩
      rw [hAdecomp]
      simp [List.count_append, List.count_cons]
      omega
    rw [if_pos hcount]
    have hsplit : splitCh '/' (reg ++ strL "/" ++ joinWith (strL "/") segs ++
        strL "/" ++ lastSeg) = reg :: (segs ++ [lastSeg]) := by
      rw [hAdecomp, splitCh_append _ hregs, splitCh_joinWith segs lastSeg hsegs hsegsl hlsl]
    rw [hsplit]
    simp only [List.reverse_append, List.reverse_cons, List.reverse_nil, List.nil_append,
      List.singleton_append, List.reverse_reverse]
  refine ⟨?_, ?_, by decide⟩
  · intro reg fp t rest segs hreg hregd hregs hsegs hsegsl hfp ht hrest hfpc htc hrestc
      hstrip hAS
    have hLdecomp : fp ++ strL ":" ++ t ++ rest = fp ++ ':' :: (t ++ rest) := by
      simp [strL]
    have hlsl : '/' ∉ fp ++ strL ":" ++ t ++ rest := by
      rw [hLdecomp]
      intro hm
      rcases List.mem_append.mp hm with hm' | hm'
      · exact hfp hm'
      · rcases List.mem_cons.mp hm' with hm'' | hm''
        · exact absurd hm''.symm (by decide)
        · rcases List.mem_append.mp hm'' with hm3 | hm3
          · exact ht hm3
          · exact hrest hm3
    rw [key reg (fp ++ strL ":" ++ t ++ rest) segs hreg hregd hregs hsegs hsegsl hlsl
      hstrip hAS]
    have hfpc' : ∀ c ∈ fp, c ≠ ':' := fun c hc hce => hfpc (hce ▸ hc)
    have htc' : ∀ c ∈ t, c ≠ ':' := fun c hc hce => htc (hce ▸ hc)
    have htw : (fp ++ strL ":" ++ t ++ rest).takeWhile ncol = fp := by
      rw [hLdecomp]
      exact takeWhile_ncol_append _ hfpc'
    have hcolL : ':' ∈ fp ++ strL ":" ++ t ++ rest := by
      rw [hLdecomp]
      exact List.mem_append_right _ (List.mem_cons_self _ _)
    have hscp : secondColonPiece (fp ++ strL ":" ++ t ++ rest) = t := by
      unfold secondColonPiece
      rw [hLdecomp, dropWhile_ncol_append _ hfpc']
      rw [List.drop_one, List.tail_cons]
      rcases hrestc with rfl | ⟨r2, rfl⟩
      · rw [List.append_nil]
        exact takeWhile_ncol_all htc'
      · exact takeWhile_ncol_append _ htc'
    rw [htw, if_pos hcolL, hscp]
  · intro reg lastSeg segs hreg hregd hregs hsegs hsegsl hlsl hlsc hstrip hAS
    rw [key reg lastSeg segs hreg hregd hregs hsegs hsegsl hlsl hstrip hAS]
    have hlsc' : ∀ c ∈ lastSeg, c ≠ ':' := fun c hc hce => hlsc (hce ▸ hc)
    rw [takeWhile_ncol_all hlsc', if_neg hlsc]

/-- Witness for C4 on a concrete two-slash reference with an extra colon
in the final segment, and on a concrete reference without a tag. -/
theorem claim_C4_witness :
    parse_from_statement (strL "FROM " ++ (strL "h.example" ++ strL "/" ++
        joinWith (strL "/") [strL "a"] ++ strL "/" ++
        (strL "b" ++ strL ":" ++ strL "1" ++ strL ":2")))
      = some ⟨joinWith (strL "/") [strL "a"] ++ strL "/" ++ strL "b", strL "1",
              some (strL "h.example")⟩ :=
  claim_C4.1 (strL "h.example") (strL "b") (strL "1") (strL ":2") [strL "a"]
    (by decide) (by decide) (by decide) (by decide) (by decide) (by decide) (by decide)
    (by decide) (by decide) (by decide) (Or.inr ⟨strL "2", by decide⟩)
    (by decide) (by decide)

/-! ## Strip and head lemmas for the name invariant -/

lemma lstrip_length_le (x : Str) : (lstrip x).length ≤ x.length :=
  (List.dropWhile_suffix isPySpace).length_le

lemma rstrip_length_le (x : Str) : (rstrip x).length ≤ x.length := by
  unfold rstrip
  rw [List.length_reverse]
  calc (x.reverse.dropWhile isPySpace).length ≤ x.reverse.length :=
        (List.dropWhile_suffix isPySpace).length_le
    _ = x.length := List.length_reverse x

lemma head_not_space {c : Char} {cs : Str} (h : pstrip (c :: cs) = c :: cs) :
    isPySpace c = false := by
  cases hsp : isPySpace c with
  | false => rfl
  | true =>
    exfalso
    have h1 : lstrip (c :: cs) = lstrip cs := by
      simp [lstrip, List.dropWhile_cons, hsp]
    have h2 : (pstrip (c :: cs)).length ≤ cs.length := by
      unfold pstrip
      rw [h1]
      calc (rstrip (lstrip cs)).length ≤ (lstrip cs).length := rstrip_length_le _
        _ ≤ cs.length := lstrip_length_le _
    rw [h] at h2
    simp at h2

lemma rstrip_cons_nonspace {c : Char} (rest : Str) (h : isPySpace c = false) :
    ∃ r', rstrip (c :: rest) = c :: r' := by
  unfold rstrip
  rw [List.reverse_cons, List.dropWhile_append]
  cases hd : (rest.reverse.dropWhile isPySpace).isEmpty with
  | true =>
    refine ⟨[], ?_⟩
    simp [List.dropWhile_cons, h]
  | false =>
    refine ⟨(rest.reverse.dropWhile isPySpace).reverse, ?_⟩
    simp [List.reverse_append]

lemma lstrip_cons_nonspace {c : Char} (rest : Str) (h : isPySpace c = false) :
    lstrip (c :: rest) = c :: rest := by
  simp [lstrip, List.dropWhile_cons, h]

lemma pstrip_cons_nonspace {c : Char} (rest : Str) (h : isPySpace c = false) :
    ∃ r', pstrip (c :: rest) = c :: r' := by
  unfold pstrip
  rw [lstrip_cons_nonspace rest h]
  exact rstrip_cons_nonspace rest h

lemma isPrefixOf_AS_false {c : Char} (cs : Str) (h : isPySpace c = false) :
    (strL " AS ").isPrefixOf (c :: cs) = false := by
  have hcne : (' ' == c) = false := by
    cases hc : (' ' == c) with
    | false => rfl
    | true =>
      have : ' ' = c := by
        have := of_decide_eq_true (by exact hc)
        exact this
      rw [← this] at h
      exact absurd h (by decide)
  show (' ' :: strL "AS ").isPrefixOf (c :: cs) = false
  simp [List.isPrefixOf, hcne]

lemma beforeFirst_cons_nonspace {c : Char} (cs : Str) (h : isPySpace c = false) :
    beforeFirst (strL " AS ") (c :: cs) = c :: beforeFirst (strL " AS ") cs := by
  show (if (strL " AS ").isPrefixOf (c :: cs) then []
        else c :: beforeFirst (strL " AS ") cs) = c :: beforeFirst (strL " AS ") cs
  rw [isPrefixOf_AS_false cs h]
  simp

lemma dropWhile_cons_false {p : Char → Bool} {l : Str} {d : Char} {ds : Str}
    (h : l.dropWhile p = d :: ds) : p d = false := by
  induction l with
  | nil => simp at h
  | cons c cs ih =>
    rw [List.dropWhile_cons] at h
    split at h
    · exact ih h
    · rename_i hpc
      cases hl : p c with
      | false =>
        rw [List.cons.injEq] at h
        rw [← h.1]
        exact hl
      | true => exact absurd hl hpc

lemma beforeLastColon_nil {ip : Str} (hcol : ':' ∈ ip) (h0 : beforeLastColon ip = []) :
    ip.head? = some ':' := by
  unfold beforeLastColon at h0
  rw [List.reverse_eq_nil_iff] at h0
  cases hd : ip.reverse.dropWhile ncol with
  | nil =>
    exfalso
    rw [List.dropWhile_eq_nil_iff] at hd
    have : ncol ':' = true := hd ':' (List.mem_reverse.mpr hcol)
    simp [ncol] at this
  | cons d ds =>
    have hds : ds = [] := by
      rw [hd] at h0
      simpa using h0
    have hdcol : d = ':' := by
      have := dropWhile_cons_false hd
      simp [ncol] at this
      exact this
    have hrec : ip.reverse = ip.reverse.takeWhile ncol ++ [d] := by
      conv_lhs => rw [← List.takeWhile_append_dropWhile (p := ncol) (l := ip.reverse)]
      rw [hd, hds]
    have h1 := congrArg List.reverse hrec
    rw [List.reverse_reverse] at h1
    rw [h1, hdcol, List.reverse_append]
    simp

lemma splitCh_length (sep : Char) (x : Str) : (splitCh sep x).length = x.count sep + 1 := by
  induction x with
  | nil => rfl
  | cons c cs ih =>
    by_cases hc : c = sep
    · show (if c = sep then [] :: splitCh sep cs
            else match splitCh sep cs with
                 | [] => [[c]]
                 | r :: rs => (c :: r) :: rs).length = (c :: cs).count sep + 1
      rw [if_pos hc]
      simp only [List.length_cons, ih, List.count_cons]
      simp [hc]
    · rw [splitCh_cons_of_ne hc]
      cases hsp : splitCh sep cs with
      | nil => exact absurd hsp (splitCh_ne_nil sep cs)
      | cons r rs =>
        have hbc : (c == sep) = false := beq_eq_false_iff_ne.mpr hc
        rw [hsp] at ih
        simp only [List.headI_cons, List.tail_cons, List.length_cons, List.count_cons,
          hbc, Bool.false_eq_true, if_false] at ih ⊢
        omega

/-- Unfolding helper: on an already-stripped remainder `x`,
`parse_from_statement` reduces to its branch structure over the computed
image part (with the `' AS '` handling kept symbolic). -/
lemma parse_from_statement_append (x : Str) (hx : pstrip x = x) :
    parse_from_statement (strL "FROM " ++ x) =
      (if lowerStr (if occursIn (strL " AS ") (upperStr x)
                    then pstrip (beforeFirst (strL " AS ") x) else x) = strL "scratch"
          ∨ (if occursIn (strL " AS ") (upperStr x)
             then pstrip (beforeFirst (strL " AS ") x) else x).head? = some '$' then none
       else if '/' ∈ (if occursIn (strL " AS ") (upperStr x)
                      then pstrip (beforeFirst (strL " AS ") x) else x)
              ∧ 2 ≤ (if occursIn (strL " AS ") (upperStr x)
                     then pstrip (beforeFirst (strL " AS ") x) else x).count '/' then
         match splitCh '/' (if occursIn (strL " AS ") (upperStr x)
                            then pstrip (beforeFirst (strL " AS ") x) else x) with
         | [] => none
         | registry :: rest =>
           match rest.reverse with
           | [] => none
           | lastSeg :: midRev =>
             some { name := joinWith (strL "/") midRev.reverse ++ strL "/" ++
                      lastSeg.takeWhile ncol,
                    tag := if ':' ∈ lastSeg then secondColonPiece lastSeg
                           else strL "latest",
                    registry := some registry }
       else if ':' ∈ (if occursIn (strL " AS ") (upperStr x)
                      then pstrip (beforeFirst (strL " AS ") x) else x) then
         some ⟨beforeLastColon (if occursIn (strL " AS ") (upperStr x)
                                then pstrip (beforeFirst (strL " AS ") x) else x),
               afterLastColon (if occursIn (strL " AS ") (upperStr x)
                               then pstrip (beforeFirst (strL " AS ") x) else x), none⟩
       else some ⟨(if occursIn (strL " AS ") (upperStr x)
                   then pstrip (beforeFirst (strL " AS ") x) else x), strL "latest", none⟩) := by
  have hdrop : (strL "FROM " ++ x).drop 5 = x := by
    have h5 : (strL "FROM ").length = 5 := rfl
    rw [← h5, List.drop_left]
  simp only [parse_from_statement, hdrop, hx]

/-- Core of the name invariant: whenever the branch structure of the
parser maps an image part with a non-colon head to `some img`, the
resulting name is non-empty. -/
lemma parse_body_name {d : Char} {ds : Str} {img : DockerImage} (hd : d ≠ ':')
    (hparse :
      (if lowerStr (d :: ds) = strL "scratch" ∨ (d :: ds).head? = some '$' then none
       else if '/' ∈ (d :: ds) ∧ 2 ≤ (d :: ds).count '/' then
         match splitCh '/' (d :: ds) with
         | [] => none
         | registry :: rest =>
           match rest.reverse with
           | [] => none
           | lastSeg :: midRev =>
             some { name := joinWith (strL "/") midRev.reverse ++ strL "/" ++
                      lastSeg.takeWhile ncol,
                    tag := if ':' ∈ lastSeg then secondColonPiece lastSeg
                           else strL "latest",
                    registry := some registry }
       else if ':' ∈ (d :: ds) then
         some ⟨beforeLastColon (d :: ds), afterLastColon (d :: ds), none⟩
       else some ⟨d :: ds, strL "latest", none⟩) = some img) :
    img.name ≠ [] := by
  split at hparse
  · exact absurd hparse (by simp)
  · split at hparse
    · split at hparse
      · exact absurd hparse (by simp)
      · split at hparse
        · exact absurd hparse (by simp)
        · rw [Option.some.injEq] at hparse
          intro hn
          rw [← hparse] at hn
          simp at hn
          exact absurd hn.2.1 (by decide)
    · split at hparse
      · rename_i hcol
        rw [Option.some.injEq] at hparse
        intro hn
        rw [← hparse] at hn
        have hh := beforeLastColon_nil hcol hn
        simp only [List.head?_cons, Option.some.injEq] at hh
        exact hd hh
      · rw [Option.some.injEq] at hparse
        intro hn
        rw [← hparse] at hn
        simp at hn

/-- Counterexample for C9: the malformed line `FROM :1.0` parses to an
image whose name is the EMPTY string, refuting the claimed non-emptiness
invariant. -/
theorem claim_C9_cex :
    parseLine (strL "FROM :1.0") = some ⟨[], strL "1.0", none⟩ := by decide

/-- Claim C9 (amended): the tag of a parsed image defaults to `latest`
whenever the image part carries no colon at all, and the name is
non-empty for every image part that does not begin with `':'`; for
colon-initial image parts such as `FROM :1.0` the name is empty. -/
theorem claim_C9 :
    (∀ x : Str, pstrip x = x → occursIn (strL " AS ") (upperStr x) = false →
      lowerStr x ≠ strL "scratch" → x.head? ≠ some '$' → ':' ∉ x →
      ∃ img, parse_from_statement (strL "FROM " ++ x) = some img ∧ img.tag = strL "latest")
    ∧ (∀ (x : Str) (img : DockerImage), pstrip x = x → x ≠ [] → x.head? ≠ some ':' →
        parse_from_statement (strL "FROM " ++ x) = some img → img.name ≠ [])
    ∧ parseLine (strL "FROM node") = some ⟨strL "node", strL "latest", none⟩ := by
  refine ⟨?_, ?_, by decide⟩
  · intro x hx hAS hscr hdol hcolx
    rw [parse_from_statement_no_as x hx hAS]
    rw [if_neg (by rintro (h | h); exacts [hscr h, hdol h])]
    by_cases hsl : '/' ∈ x ∧ 2 ≤ x.count '/'
    · rw [if_pos hsl]
      cases hsp : splitCh '/' x with
      | nil => exact absurd hsp (splitCh_ne_nil '/' x)
      | cons r rest =>
        cases hrev : rest.reverse with
        | nil =>
          exfalso
          have hrest0 : rest = [] := by
            have h' := congrArg List.reverse hrev
            rwa [List.reverse_reverse] at h'
          have hlen := splitCh_length '/' x
          rw [hsp, hrest0] at hlen
          simp at hlen
          omega
        | cons lastSeg midRev =>
          have hmemr : lastSeg ∈ rest := by
            have h' : lastSeg ∈ rest.reverse := by
              rw [hrev]
              exact List.mem_cons_self _ _
            exact List.mem_reverse.mp h'
          have hmem : lastSeg ∈ splitCh '/' x := by
            rw [hsp]
            exact List.mem_cons_of_mem _ hmemr
          have hnc : ':' ∉ lastSeg := fun hm => hcolx (mem_of_mem_splitCh hmem hm)
          refine ⟨⟨joinWith (strL "/") midRev.reverse ++ strL "/" ++
            lastSeg.takeWhile ncol, strL "latest", some r⟩, ?_, rfl⟩
          simp only [hsp, hrev]
          rw [if_neg hnc]
    · rw [if_neg hsl, if_neg hcolx]
      exact ⟨_, rfl, rfl⟩
  · intro x img hx hne hhead hparse
    obtain ⟨c, cs, rfl⟩ : ∃ c cs, x = c :: cs := by
      cases x with
      | nil => exact absurd rfl hne
      | cons c cs => exact ⟨c, cs, rfl⟩
    have hcsp : isPySpace c = false := head_not_space hx
    rw [parse_from_statement_append _ hx] at hparse
    set ip := if occursIn (strL " AS ") (upperStr (c :: cs))
              then pstrip (beforeFirst (strL " AS ") (c :: cs)) else (c :: cs) with hip
    have hips : ∃ cs', ip = c :: cs' := by
      rw [hip]
      by_cases hAS : occursIn (strL " AS ") (upperStr (c :: cs)) = true
      · rw [if_pos hAS, beforeFirst_cons_nonspace cs hcsp]
        exact pstrip_cons_nonspace _ hcsp
      · rw [if_neg hAS]
        exact ⟨cs, rfl⟩
    obtain ⟨cs', hip'⟩ := hips
    rw [hip'] at hparse
    have hcne : c ≠ ':' := by
      intro he
      exact hhead (by simp [he])
    exact parse_body_name hcne hparse

/-- Witness for C9 on a concrete tagless reference. -/
theorem claim_C9_witness :
    ∃ img, parse_from_statement (strL "FROM " ++ strL "node") = some img ∧
      img.tag = strL "latest" :=
  claim_C9.1 (strL "node") (by decide) (by decide) (by decide) (by decide) (by decide)
